import Mathlib

/-!
Verification of the go-timing hierarchical timing library.

The development shallowly embeds the timing tree (`Location`, location.go),
the text renderer (`dumpToBuilder`, output.go), the map renderer
(`dumpToMap`, output.go) and the context plumbing (`ForName` /
`findParentTiming`, timing.go).  Conventions used throughout:

* Go `uint32` counters are modelled as `Nat` (the claims under study do not
  involve wrap-around at 2^32) and `time.Duration` (an `int64` count of
  nanoseconds) as `Int`.
* The Go `Children map[string]*Location` is keyed by the child's name:
  `getChild` always registers a child under its own `Name`, so the map is
  modelled as a `List Location` looked up by name.
* `Details` values are arbitrary Go values rendered with `fmt.Sprintf`;
  they are modelled by their rendered strings.
* Panics are modelled as `Except.error` carrying the panic message; clock
  reads (`time.Since`) become explicit duration parameters.
* A caller supplied `DurationFormatter` is a plain function; a `nil`
  formatter in Go means the `time.Duration.String` formatter of the Go
  standard library, which is likewise just some function `Int → String`,
  so our `ReportOptions` always carries the formatter to apply.
-/

namespace GoTiming

/-- The timing tree node, Go struct `Location` (location.go:11-41): name,
entry/exit counters, accumulated duration in nanoseconds, the async flag,
the details map (key to rendered value), the child creation order
(`CallOrder`) and the children map (modelled as a list, see above). -/
inductive Location : Type where
  | node (name : String) (entryCount exitCount : Nat) (totalDuration : Int)
      (async : Bool) (details : List (String × String)) (callOrder : List String)
      (children : List Location)

def Location.name : Location → String
  | .node n _ _ _ _ _ _ _ => n

def Location.entryCount : Location → Nat
  | .node _ e _ _ _ _ _ _ => e

def Location.exitCount : Location → Nat
  | .node _ _ x _ _ _ _ _ => x

def Location.totalDuration : Location → Int
  | .node _ _ _ d _ _ _ _ => d

def Location.async : Location → Bool
  | .node _ _ _ _ a _ _ _ => a

def Location.details : Location → List (String × String)
  | .node _ _ _ _ _ dt _ _ => dt

def Location.callOrder : Location → List String
  | .node _ _ _ _ _ _ co _ => co

def Location.children : Location → List Location
  | .node _ _ _ _ _ _ _ cs => cs

/-- `TotalChildDuration` (location.go:100-109): the sum of the immediate
children's `TotalDuration`. -/
def Location.totalChildDuration (l : Location) : Int :=
  (l.children.map Location.totalDuration).sum

/-- Go struct `ReportOptions` (output.go:11-32).  `pfx` is the `Prefix`
field; `durationFormatter` is the formatter actually applied (the Go
`nil` default stands for the standard library duration formatter). -/
structure ReportOptions where
  pfx : String
  separator : String
  durationFormatter : Int → String
  excludeChildren : Bool
  compact : Bool

/-- output.go:53-58: an async node renders its name in brackets. -/
def effectiveName (l : Location) : String :=
  if l.async then "[" ++ l.name ++ "]" else l.name

/-- output.go:47-49: the duration reported by `dumpToBuilder` — the raw
total, minus the children's total when `excludeChildren` is set and the
node is not async. -/
def reportDuration (l : Location) (excludeChildren : Bool) : Int :=
  if excludeChildren && !l.async then l.totalDuration - l.totalChildDuration
  else l.totalDuration

/-- output.go:73: `time.Duration(float64(reportDuration)/float64(ExitCount))`.
The float64 division followed by the integer conversion truncates the
quotient toward zero, i.e. `Int.tdiv` (exact whenever the magnitudes stay
below 2^53, where float64 arithmetic is exact on integers). -/
def perCallDuration (rd : Int) (exits : Nat) : Int :=
  Int.tdiv rd (Int.ofNat exits)

/-- `strings.Repeat(" ", n)`. -/
def spaces (n : Nat) : String :=
  String.mk (List.replicate n ' ')

/-- The details map's keys in `sort.Strings` order (output.go:127-131). -/
def detailKeys (l : Location) : List String :=
  List.insertionSort (· ≤ ·) (l.details.map Prod.fst)

/-- The rendered value stored under a details key. -/
def detailValue (l : Location) (k : String) : String :=
  match l.details.find? (fun p => p.1 == k) with
  | some p => p.2
  | none => ""

/-- One key's block in the multi-line branch of `formatDetails`
(output.go:155-172): the value is split into lines after trimming
trailing newlines; the first line carries the key at the base indent of
four spaces, continuation lines are aligned under the value. -/
def blockDetail (pfx k v : String) : String :=
  let ls := (v.dropRightWhile (fun c => c = '\n')).splitOn "\n"
  let keyIndent := k.utf8ByteSize + 1 + 4
  match ls with
  | [] => ""
  | first :: rest =>
    ("\n" ++ pfx ++ spaces 4 ++ k ++ ":" ++ first)
      ++ String.join (rest.map (fun line => "\n" ++ pfx ++ spaces keyIndent ++ line))

/-- `formatDetails` (output.go:123-175): inline `(k:v, k:v)` rendering when
no value contains a newline, otherwise one indented block per key. -/
def formatDetails (l : Location) (pfx : String) : String :=
  if l.details.length = 0 then ""
  else
    let keys := detailKeys l
    let anyNewlines := keys.any (fun k => (detailValue l k).data.contains '\n')
    if anyNewlines then
      String.join (keys.map (fun k => blockDetail pfx k (detailValue l k)))
    else
      " (" ++ String.intercalate ", " (keys.map (fun k => k ++ ":" ++ detailValue l k)) ++ ")"

/-- output.go:67-71: the `entries/exits` imbalance warning, or the `calls:`
count for a balanced node completed more than once. -/
def countersText (l : Location) : String :=
  if l.entryCount ≠ l.exitCount then
    " entries: " ++ toString l.entryCount ++ " exits: " ++ toString l.exitCount
  else if l.exitCount > 1 then
    " calls: " ++ toString l.entryCount
  else ""

/-- output.go:72-81: the per-call average, appended whenever more than one
call has completed. -/
def perCallText (l : Location) (o : ReportOptions) (rd : Int) : String :=
  if l.exitCount > 1 then
    " (" ++ o.durationFormatter (perCallDuration rd l.exitCount) ++ "/call)"
  else ""

/-- The text `dumpToBuilder` emits for the node itself (output.go:47-83),
without the line separator: prefix, path, effective name, " - ", then —
only when the node was ever entered — the formatted duration and the
counter annotations, and finally the formatted details. -/
def selfLine (l : Location) (path : String) (o : ReportOptions) : String :=
  let rd := reportDuration l o.excludeChildren
  o.pfx ++ path ++ effectiveName l ++ " - "
    ++ (if l.entryCount > 0 then
          o.durationFormatter rd ++ countersText l ++ perCallText l o rd
        else "")
    ++ formatDetails l o.pfx

/-- The child visit order of `dumpToBuilder` (output.go:90-94): the Go code
collects the children map's keys, sorts them with `sort.Strings` and
indexes the map; since every key equals its child's name this is the
children sorted by name. -/
def sortChildren (cs : List Location) : List Location :=
  List.insertionSort (fun a b => a.name ≤ b.name) cs

theorem sortChildren_perm (cs : List Location) : List.Perm (sortChildren cs) cs :=
  List.perm_insertionSort _ cs

theorem sizeOf_sortChildren (cs : List Location) :
    sizeOf (sortChildren cs) = sizeOf cs :=
  (sortChildren_perm cs).sizeOf_eq_sizeOf

theorem sizeOf_children_lt (l : Location) : sizeOf l.children < sizeOf l := by
  cases l with
  | node n e x d a dt co cs =>
    simp [Location.children]

mutual
/-- `dumpToBuilder` (output.go:39-99).  `acc` is the current contents of the
`strings.Builder`; the function returns the contents after the call.  An
unnamed node emits nothing of its own and passes `path` through; a named
node first emits a newline when the builder is nonempty, then its own
line, and either way the children are visited in sorted name order with
the extended (expanded mode) or constant (compact mode) child path. -/
def dumpToBuilder (l : Location) (path : String) (o : ReportOptions) (acc : String) : String :=
  let childPfx :=
    if l.name = "" then path
    else if o.compact then path ++ o.separator
    else path ++ effectiveName l ++ o.separator
  let acc1 :=
    if l.name = "" then acc
    else (if acc.length > 0 then acc ++ "\n" else acc) ++ selfLine l path o
  dumpList (sortChildren l.children) childPfx o acc1
termination_by sizeOf l
decreasing_by
  simp only [sizeOf_sortChildren]
  exact sizeOf_children_lt l

/-- The children loop of `dumpToBuilder` (output.go:95-98). -/
def dumpList (cs : List Location) (path : String) (o : ReportOptions) (acc : String) : String :=
  match cs with
  | [] => acc
  | c :: rest => dumpList rest path o (dumpToBuilder c path o acc)
termination_by sizeOf cs
decreasing_by
  all_goals simp
  all_goals omega
end

/-- `Report` (location.go:112-123): defaults the separator, then renders
from an empty builder. -/
def Location.report (l : Location) (o : ReportOptions) : String :=
  let o' : ReportOptions :=
    if o.separator = "" then
      ⟨o.pfx, if o.compact then " | " else " > ", o.durationFormatter,
        o.excludeChildren, o.compact⟩
    else o
  dumpToBuilder l "" o' ""

/-- The duration reported by `dumpToMap` (output.go:108-111): unlike
`reportDuration` in `dumpToBuilder`, the children's total is subtracted
whenever `excludeChildren` is set, with no check of the async flag. -/
def mapReportDuration (l : Location) (excludeChildren : Bool) : Int :=
  if excludeChildren then l.totalDuration - l.totalChildDuration
  else l.totalDuration

mutual
/-- `dumpToMap` (output.go:103-121).  The Go map value is
`float64(reportDuration.Nanoseconds()) / divisor`; the division is
modelled in exact rational arithmetic.  The Go children map is iterated
in unspecified order, which does not affect the resulting map because
the fully qualified keys are distinct; we emit the entries in the
children's stored order. -/
def dumpToMap (l : Location) (separator path : String) (divisor : ℚ) (excl : Bool) :
    List (String × ℚ) :=
  let own : List (String × ℚ) :=
    if l.name = "" then []
    else if l.entryCount > 0 then
      [(path ++ l.name, ((mapReportDuration l excl : Int) : ℚ) / divisor)]
    else []
  let childPfx := if l.name = "" then path else path ++ l.name ++ separator
  own ++ dumpMapList l.children separator childPfx divisor excl
termination_by sizeOf l
decreasing_by
  exact sizeOf_children_lt l

/-- The children loop of `dumpToMap` (output.go:118-120). -/
def dumpMapList (cs : List Location) (separator path : String) (divisor : ℚ) (excl : Bool) :
    List (String × ℚ) :=
  match cs with
  | [] => []
  | c :: rest =>
    dumpToMap c separator path divisor excl ++ dumpMapList rest separator path divisor excl
termination_by sizeOf cs
decreasing_by
  all_goals simp
  all_goals omega
end

/-- `ReportMap` (location.go:134-138). -/
def Location.reportMap (l : Location) (separator : String) (divisor : ℚ)
    (excludeChildren : Bool) : List (String × ℚ) :=
  dumpToMap l separator "" divisor excludeChildren

mutual
/-- All nodes of the timing tree, preorder. -/
def nodesOf (l : Location) : List Location :=
  l :: nodesList l.children
termination_by sizeOf l
decreasing_by
  exact sizeOf_children_lt l

/-- All nodes of a forest. -/
def nodesList (cs : List Location) : List Location :=
  match cs with
  | [] => []
  | c :: rest => nodesOf c ++ nodesList rest
termination_by sizeOf cs
decreasing_by
  all_goals simp
  all_goals omega
end

theorem self_mem_nodesOf (l : Location) : l ∈ nodesOf l := by
  rw [nodesOf]
  exact List.mem_cons_self l _

theorem mem_nodesList (cs : List Location) (c : Location) (n : Location)
    (hc : c ∈ cs) (hn : n ∈ nodesOf c) : n ∈ nodesList cs := by
  induction cs with
  | nil => cases hc
  | cons d rest ih =>
    rw [nodesList]
    rcases List.mem_cons.mp hc with h | h
    · exact List.mem_append.mpr (Or.inl (h ▸ hn))
    · exact List.mem_append.mpr (Or.inr (ih h))

theorem mem_nodesOf_child (l : Location) (c : Location) (n : Location)
    (hc : c ∈ l.children) (hn : n ∈ nodesOf c) : n ∈ nodesOf l := by
  rw [nodesOf]
  exact List.mem_cons_of_mem _ (mem_nodesList _ _ _ hc hn)

mutual
/-- The durations carried by the lines `dumpToBuilder` renders: one value
for every visited node with a nonempty name and a positive entry count
(output.go:44-66), children visited in sorted order. -/
def renderedDurations (l : Location) (excl : Bool) : List Int :=
  (if l.name ≠ "" ∧ 0 < l.entryCount then [reportDuration l excl] else [])
    ++ renderedDurationsList (sortChildren l.children) excl
termination_by sizeOf l
decreasing_by
  simp only [sizeOf_sortChildren]
  exact sizeOf_children_lt l

/-- The rendered durations of a forest. -/
def renderedDurationsList (cs : List Location) (excl : Bool) : List Int :=
  match cs with
  | [] => []
  | c :: rest => renderedDurations c excl ++ renderedDurationsList rest excl
termination_by sizeOf cs
decreasing_by
  all_goals simp
  all_goals omega
end

/-- The modulus of Go's 32-bit unsigned counters: `atomic.AddUint32`
wraps at 2^32. -/
def uint32Mod : Nat := 2 ^ 32

/-- `atomic.AddUint32(&l.EntryCount, 1)` in `Start` (location.go:65); the
uint32 addition wraps at 2^32. -/
def Location.incEntry : Location → Location
  | .node n e x d a dt co cs => .node n ((e + 1) % uint32Mod) x d a dt co cs

/-- The successful body of the `Complete` closure (location.go:72-73):
increment `ExitCount` and add the elapsed time to `TotalDuration` (the
single increment of one claimed closure; the trace semantics over
unbounded operation sequences uses the uint32-wrapping variant
`Location.applyCompleteW` below). -/
def Location.applyComplete (dur : Int) : Location → Location
  | .node n e x d a dt co cs => .node n e (x + 1) (d + dur) a dt co cs

/-- The uint32-wrapping form of the `Complete` body used by the trace
semantics: `atomic.AddUint32(&l.ExitCount, 1)` wraps at 2^32
(location.go:72).  The duration stays an exact `Int`; the counter
invariant does not involve it. -/
def Location.applyCompleteW (dur : Int) : Location → Location
  | .node n e x d a dt co cs => .node n e ((x + 1) % uint32Mod) (d + dur) a dt co cs

/-- `Start` (location.go:63-75): increments the entry count and returns the
`Complete` closure, modelled by its captured `ended` flag (initially
false); the start-time capture becomes the duration argument passed to
`completeStep` later. -/
def startHandle (l : Location) : Location × Bool :=
  (l.incEntry, false)

/-- One invocation of the `Complete` closure (location.go:67-74): the
atomic compare-and-swap on `ended` either claims the handle — and only
then are the exit count and duration updated — or fails, in which case
the closure panics before touching any counter. -/
def completeStep (dur : Int) : Bool × Location → Except String (Bool × Location)
  | (ended, l) =>
    if ended then .error "timing already completed"
    else .ok (true, l.applyComplete dur)

/-- A serialization of concurrent invocations of one `Complete` closure:
the compare-and-swap makes the invocations atomic, so any concurrent
execution is some sequence of `completeStep`s; `ds` lists the elapsed
durations each invocation would record.  A panicking invocation leaves
the state untouched.  Returns the final state and how many invocations
succeeded. -/
def runAttempts (ds : List Int) (st : Bool × Location) : (Bool × Location) × Nat :=
  match ds with
  | [] => (st, 0)
  | d :: rest =>
    match completeStep d st with
    | .ok st' =>
      let r := runAttempts rest st'
      (r.1, r.2 + 1)
    | .error _ => runAttempts rest st

theorem runAttempts_ended (ds : List Int) (l : Location) :
    runAttempts ds (true, l) = ((true, l), 0) := by
  induction ds with
  | nil => rfl
  | cons d rest ih => simp [runAttempts, completeStep, ih]

/-- An operation performed on one `Location`: a `Start` call, or an
invocation of the `Complete` closure obtained from the `i`-th `Start`
(recording elapsed time `dur`). -/
inductive LocOp where
  | startOp
  | completeOp (i : Nat) (dur : Int)

/-- A `Location` together with the `ended` flags of the `Complete`
closures handed out so far (`true` = already completed). -/
structure RunState where
  loc : Location
  handles : List Bool

/-- Executing one operation: `Start` increments the entry count (wrapping
at 2^32 like `atomic.AddUint32`) and hands out a fresh un-ended closure;
completing the `i`-th closure succeeds only if that closure exists and
has not run before — a repeated invocation panics and changes nothing
(location.go:63-75). -/
def stepOp (st : RunState) (op : LocOp) : RunState :=
  match op with
  | .startOp => ⟨st.loc.incEntry, st.handles ++ [false]⟩
  | .completeOp i dur =>
    match st.handles[i]? with
    | some false => ⟨st.loc.applyCompleteW dur, st.handles.set i true⟩
    | _ => st

/-- Run a sequence of operations against a `Location`, starting with no
outstanding handles. -/
def runOps (l : Location) (ops : List LocOp) : RunState :=
  ops.foldl stepOp ⟨l, []⟩

/-- The number of `Start` operations in a sequence. -/
def countStarts : List LocOp → Nat
  | [] => 0
  | .startOp :: rest => countStarts rest + 1
  | .completeOp _ _ :: rest => countStarts rest

/-- `getChild` (location.go:142-167): look the name up in the children
map; a hit returns the existing child and leaves the parent unchanged, a
miss creates a fresh child, registers it under its name and appends the
name to `CallOrder`.  (The Go function wraps the child in a `Context`;
the wrapper adds nothing to the tree, so the result is the child
`Location` together with the updated parent.) -/
def getChild (l : Location) (nm : String) : Location × Location :=
  match l with
  | .node n e x d a dt co cs =>
    match cs.find? (fun c => c.name == nm) with
    | some cl => (cl, .node n e x d a dt co cs)
    | none =>
      let cl : Location := .node nm 0 0 0 false [] [] []
      (cl, .node n e x d a dt (co ++ [nm]) (cs ++ [cl]))

/-- A Go `context.Context` chain as seen by the timing package: the base
context, a link carrying an unrelated key, a link carrying the timing key
with a genuine `*timing.Context` (modelled by its `Location`; a
`*timing.Context` used as a context returns itself for the timing key,
timing.go:148-153), or a link carrying the timing key with a value of the
wrong dynamic type. -/
inductive GoContext where
  | background
  | withOther (parent : GoContext)
  | withTiming (parent : GoContext) (loc : Location)
  | withWrongType (parent : GoContext) (tag : Nat)

/-- What `ctx.Value(ContextTimingKey)` yields: a `*timing.Context`, or a
value of some other type. -/
inductive TimingValue where
  | ctxRef (loc : Location)
  | wrongType (tag : Nat)

/-- The `ctx.Value(ContextTimingKey)` lookup walking the context chain. -/
def ctxTimingValue : GoContext → Option TimingValue
  | .background => none
  | .withOther p => ctxTimingValue p
  | .withTiming _ loc => some (.ctxRef loc)
  | .withWrongType _ tag => some (.wrongType tag)

/-- `findParentTiming` (timing.go:123-132): a missing value yields no
parent (nil, not a panic); a `*timing.Context` is returned; any other
dynamic type panics. -/
def findParentTiming (ctx : GoContext) : Except String (Option Location) :=
  match ctxTimingValue ctx with
  | none => .ok none
  | some (.ctxRef c) => .ok (some c)
  | some (.wrongType _) => .error "invalid context timing type"

/-- `ForName` (timing.go:101-120): an empty name panics; with no parent
timing on the context a fresh root `Location` is created; otherwise the
parent's child of that name is returned.  (The nil-context panic and the
`Context` wrapper are elided; the result is the `Location` of the
returned `Context`.) -/
def forName (ctx : GoContext) (nm : String) : Except String Location :=
  if nm = "" then .error "non-root timings must be named"
  else
    match findParentTiming ctx with
    | .error e => .error e
    | .ok none => .ok (.node nm 0 0 0 false [] [] [])
    | .ok (some p) => .ok (getChild p nm).1

/-- The reachable-tree properties C3 relies on, for one node: not async,
nonnegative accumulated duration, the immediate children's durations sum
to at most the node's own, a never-entered node has accumulated no time,
and the node is named.  All are invariants of trees built through the
API (only `Complete` adds duration, and it also increments `ExitCount`,
so `EntryCount = 0` forces `TotalDuration = 0`; `ForName` rejects empty
names, so only a `Root` node can be unnamed). -/
def SaneNode (n : Location) : Prop :=
  n.async = false ∧ 0 ≤ n.totalDuration ∧ n.totalChildDuration ≤ n.totalDuration
    ∧ (n.entryCount = 0 → n.totalDuration = 0) ∧ n.name ≠ ""

/-- Sample trees and options used by concrete evaluations below. -/
def plainFmt : Int → String := fun d => toString d

def plainOptions : ReportOptions := ⟨"", " > ", plainFmt, false, false⟩

def asyncMapTree : Location :=
  .node "root" 1 1 100 true [] ["c"] [.node "c" 1 1 40 false [] [] []]

def asyncLeaf : Location :=
  .node "a" 1 1 100 true [] [] [.node "b" 1 1 30 false [] [] []]

def imbalancedNode : Location := .node "x" 3 2 100 false [] [] []

def imbalancedOnce : Location := .node "y" 2 1 10 false [] [] []

def idleNode : Location := .node "idle" 0 0 0 false [("items", "42")] [] []

def sumTree : Location :=
  .node "root" 1 1 200 false [] ["a", "b"]
    [.node "a" 1 1 100 false [] [] [], .node "b" 1 1 50 false [] [] []]

instance : IsTotal Location (fun a b => a.name ≤ b.name) :=
  ⟨fun a b => le_total a.name b.name⟩

instance : IsTrans Location (fun a b => a.name ≤ b.name) :=
  ⟨fun _ _ _ h h' => le_trans h h'⟩

theorem entryCount_incEntry (l : Location) :
    l.incEntry.entryCount = (l.entryCount + 1) % uint32Mod := by
  cases l
  rfl

theorem exitCount_incEntry (l : Location) :
    l.incEntry.exitCount = l.exitCount := by
  cases l
  rfl

theorem entryCount_applyCompleteW (l : Location) (d : Int) :
    (l.applyCompleteW d).entryCount = l.entryCount := by
  cases l
  rfl

theorem exitCount_applyCompleteW (l : Location) (d : Int) :
    (l.applyCompleteW d).exitCount = (l.exitCount + 1) % uint32Mod := by
  cases l
  rfl

theorem entryCount_applyComplete (l : Location) (d : Int) :
    (l.applyComplete d).entryCount = l.entryCount := by
  cases l
  rfl

theorem exitCount_applyComplete (l : Location) (d : Int) :
    (l.applyComplete d).exitCount = l.exitCount + 1 := by
  cases l
  rfl

theorem totalDuration_applyComplete (l : Location) (d : Int) :
    (l.applyComplete d).totalDuration = l.totalDuration + d := by
  cases l
  rfl

theorem count_true_set (hs : List Bool) (i : Nat) (h : hs[i]? = some false) :
    (hs.set i true).count true = hs.count true + 1 := by
  induction hs generalizing i with
  | nil => simp at h
  | cons b t ih =>
    cases i with
    | zero =>
      simp only [List.getElem?_cons_zero, Option.some.injEq] at h
      subst h
      simp [List.count_cons]
    | succ j =>
      simp only [List.getElem?_cons_succ] at h
      simp [List.count_cons, ih j h]
      omega

theorem count_true_lt_length (hs : List Bool) (i : Nat) (h : hs[i]? = some false) :
    hs.count true < hs.length := by
  have hmem : false ∈ hs := List.getElem?_mem h
  rcases Nat.lt_or_ge (hs.count true) hs.length with hlt | hge
  · exact hlt
  · exfalso
    have hle := List.count_le_length true hs
    have heq : hs.count true = hs.length := Nat.le_antisymm hle hge
    have hall := List.count_eq_length.mp heq
    exact absurd (hall false hmem) (by simp)

theorem foldl_inv (l0 : Location) (ops : List LocOp) (st : RunState)
    (h1 : st.loc.entryCount = l0.entryCount + st.handles.length)
    (h2 : st.loc.exitCount = l0.exitCount + st.handles.count true)
    (hx : l0.exitCount ≤ l0.entryCount)
    (hb : l0.entryCount + st.handles.length + countStarts ops < uint32Mod) :
    (ops.foldl stepOp st).loc.entryCount
        = l0.entryCount + (ops.foldl stepOp st).handles.length
    ∧ (ops.foldl stepOp st).loc.exitCount
        = l0.exitCount + (ops.foldl stepOp st).handles.count true := by
  induction ops generalizing st with
  | nil => exact ⟨h1, h2⟩
  | cons op rest ih =>
    rw [List.foldl_cons]
    cases op with
    | startOp =>
      rw [countStarts] at hb
      apply ih
      · simp [stepOp, entryCount_incEntry, h1]
        rw [Nat.mod_eq_of_lt (by omega)]
        omega
      · simp [stepOp, exitCount_incEntry, h2, List.count_append]
      · simp [stepOp]
        omega
    | completeOp i dur =>
      rw [countStarts] at hb
      cases hv : st.handles[i]? with
      | none =>
        apply ih
        · simp [stepOp, hv, h1]
        · simp [stepOp, hv, h2]
        · simp [stepOp, hv]
          omega
      | some b =>
        cases b with
        | true =>
          apply ih
          · simp [stepOp, hv, h1]
          · simp [stepOp, hv, h2]
          · simp [stepOp, hv]
            omega
        | false =>
          have hlt := count_true_lt_length st.handles i hv
          apply ih
          · simp [stepOp, hv, entryCount_applyCompleteW, h1]
          · simp [stepOp, hv, exitCount_applyCompleteW, h2, count_true_set _ _ hv]
            rw [Nat.mod_eq_of_lt (by omega)]
            omega
          · simp [stepOp, hv]
            omega

theorem foldl_replicate_start (n : Nat) (st : RunState)
    (he : st.loc.entryCount < uint32Mod) :
    ((List.replicate n LocOp.startOp).foldl stepOp st).loc.entryCount
        = (st.loc.entryCount + n) % uint32Mod
    ∧ ((List.replicate n LocOp.startOp).foldl stepOp st).loc.exitCount
        = st.loc.exitCount
    ∧ ((List.replicate n LocOp.startOp).foldl stepOp st).handles
        = st.handles ++ List.replicate n false := by
  induction n generalizing st with
  | zero =>
    refine ⟨?_, rfl, by simp⟩
    simp [Nat.mod_eq_of_lt he]
  | succ k ih =>
    rw [List.replicate_succ, List.foldl_cons]
    have hstep : (stepOp st LocOp.startOp).loc.entryCount
        = (st.loc.entryCount + 1) % uint32Mod := by
      simp [stepOp, entryCount_incEntry]
    have hlt : (stepOp st LocOp.startOp).loc.entryCount < uint32Mod := by
      rw [hstep]
      exact Nat.mod_lt _ (by norm_num [uint32Mod])
    obtain ⟨ih1, ih2, ih3⟩ := ih (stepOp st LocOp.startOp) hlt
    refine ⟨?_, ?_, ?_⟩
    · rw [ih1, hstep, Nat.mod_add_mod]
      congr 1
      omega
    · rw [ih2]
      simp [stepOp, exitCount_incEntry]
    · rw [ih3]
      simp [stepOp, List.replicate_succ]

theorem mem_nodesList_elim (cs : List Location) (n : Location)
    (h : n ∈ nodesList cs) : ∃ c ∈ cs, n ∈ nodesOf c := by
  induction cs with
  | nil =>
    rw [nodesList] at h
    cases h
  | cons c rest ih =>
    rw [nodesList] at h
    rcases List.mem_append.mp h with h | h
    · exact ⟨c, List.mem_cons_self c rest, h⟩
    · obtain ⟨d, hd, hn⟩ := ih h
      exact ⟨d, List.mem_cons_of_mem _ hd, hn⟩

mutual
/-- All the rendered durations of a sane tree sum exactly to the root's
raw total duration: the per-node subtraction telescopes. -/
theorem renderedSum (l : Location) (h : ∀ n ∈ nodesOf l, SaneNode n) :
    (renderedDurations l true).sum = l.totalDuration := by
  have hself := h l (self_mem_nodesOf l)
  have hsub : ∀ n ∈ nodesList (sortChildren l.children), SaneNode n := by
    intro n hn
    obtain ⟨c, hc, hcn⟩ := mem_nodesList_elim _ _ hn
    have hc' : c ∈ l.children := (sortChildren_perm l.children).mem_iff.mp hc
    exact h n (mem_nodesOf_child l c n hc' hcn)
  have hchild : (renderedDurationsList (sortChildren l.children) true).sum
      = l.totalChildDuration := by
    rw [renderedSumList _ hsub]
    unfold Location.totalChildDuration
    exact ((sortChildren_perm l.children).map Location.totalDuration).sum_eq
  rw [renderedDurations, List.sum_append, hchild]
  by_cases he : 0 < l.entryCount
  · have hcond : l.name ≠ "" ∧ 0 < l.entryCount := ⟨hself.2.2.2.2, he⟩
    rw [if_pos hcond]
    have hrd : reportDuration l true = l.totalDuration - l.totalChildDuration := by
      simp [reportDuration, hself.1]
    simp [hrd]
  · have he0 : l.entryCount = 0 := by omega
    have hd0 : l.totalDuration = 0 := hself.2.2.2.1 he0
    have hcond : ¬(l.name ≠ "" ∧ 0 < l.entryCount) := by
      intro hc
      exact he hc.2
    rw [if_neg hcond]
    have hge : 0 ≤ l.totalChildDuration := by
      apply List.sum_nonneg
      intro a ha
      obtain ⟨c, hc, hca⟩ := List.mem_map.mp ha
      have hcn := (h c (mem_nodesOf_child l c c hc (self_mem_nodesOf c))).2.1
      omega
    have hle : l.totalChildDuration ≤ l.totalDuration := hself.2.2.1
    simp
    omega
termination_by sizeOf l
decreasing_by
  simp only [sizeOf_sortChildren]
  exact sizeOf_children_lt l

/-- Forest version of `renderedSum`. -/
theorem renderedSumList (cs : List Location) (h : ∀ n ∈ nodesList cs, SaneNode n) :
    (renderedDurationsList cs true).sum = (cs.map Location.totalDuration).sum := by
  match cs with
  | [] => simp [renderedDurationsList]
  | c :: rest =>
    have hc : ∀ n ∈ nodesOf c, SaneNode n := by
      intro n hn
      exact h n (mem_nodesList _ c n (List.mem_cons_self c rest) hn)
    have hrest : ∀ n ∈ nodesList rest, SaneNode n := by
      intro n hn
      obtain ⟨d, hd, hdn⟩ := mem_nodesList_elim _ _ hn
      exact h n (mem_nodesList _ d n (List.mem_cons_of_mem _ hd) hdn)
    rw [renderedDurationsList, List.sum_append, renderedSum c hc,
      renderedSumList rest hrest, List.map_cons, List.sum_cons]
termination_by sizeOf cs
decreasing_by
  all_goals simp
  all_goals omega
end

/-- C1: `dumpToMap` does NOT apply the renderer's async exemption: with
`excludeChildren = true` it subtracts the children's total from an async
node's duration (output.go:108-111 has no `!l.Async` check, unlike
output.go:48), contradicting the `Async` field's documentation
(location.go:29, children's time "never" excluded) and the spec's "same
duration-exclusion rule".  On a tree whose async root accumulated 100ns
with one 40ns child, `ReportMap` with divisor 1 maps the root to 60, not
its raw 100 (which is what `dumpToBuilder`'s rule yields). -/
theorem reportMap_async_subtracts_children :
    dumpToMap asyncMapTree "." "" 1 true = [("root", 60), ("root.c", 40)]
    ∧ reportDuration asyncMapTree true = 100
    ∧ mapReportDuration asyncMapTree true = 60 := by
  refine ⟨?_, by decide, by decide⟩
  simp [dumpToMap, dumpMapList, asyncMapTree, mapReportDuration, Location.name,
    Location.entryCount, Location.children, Location.totalDuration,
    Location.totalChildDuration]

/-- C2: for an async `Location`, `dumpToBuilder` reports the same duration
with and without `excludeChildren` (output.go:47-49), so the node's
rendered line is identical in the two modes. -/
theorem async_excludeChildren_render_id (l : Location) (path p s : String)
    (f : Int → String) (c : Bool) (h : l.async = true) :
    reportDuration l true = reportDuration l false
    ∧ selfLine l path ⟨p, s, f, true, c⟩ = selfLine l path ⟨p, s, f, false, c⟩ := by
  have hrd : reportDuration l true = reportDuration l false := by
    simp [reportDuration, h]
  exact ⟨hrd, by simp [selfLine, perCallText, hrd]⟩

/-- C2 witness: a concrete async node with one child. -/
theorem async_excludeChildren_render_id_witness :
    reportDuration asyncLeaf true = reportDuration asyncLeaf false
    ∧ selfLine asyncLeaf "" ⟨"", " > ", plainFmt, true, false⟩
        = selfLine asyncLeaf "" ⟨"", " > ", plainFmt, false, false⟩ :=
  async_excludeChildren_render_id asyncLeaf "" "" " > " plainFmt false rfl

/-- C3: on a tree of sane nodes (no async flag, nonnegative durations,
children's totals bounded by the parent's, nothing accumulated without
an entry, all nodes named), `dumpToBuilder` with `excludeChildren = true`
reports `TotalDuration - TotalChildDuration` for every node, and the
rendered durations over all lines sum to the root's raw total. -/
theorem excludeChildren_sum_law (l : Location) (h : ∀ n ∈ nodesOf l, SaneNode n) :
    (∀ n ∈ nodesOf l, reportDuration n true = n.totalDuration - n.totalChildDuration)
    ∧ (renderedDurations l true).sum = l.totalDuration := by
  refine ⟨fun n hn => ?_, renderedSum l h⟩
  simp [reportDuration, (h n hn).1]

/-- C3 witness: a root of 200ns with children of 100ns and 50ns sums to
exactly 200 under exclude-children rendering. -/
theorem excludeChildren_sum_law_witness :
    (renderedDurations sumTree true).sum = (200 : Int) := by
  have hsane : ∀ n ∈ nodesOf sumTree, SaneNode n := by
    simp only [sumTree, nodesOf, nodesList, Location.children]
    simp [SaneNode, Location.async, Location.totalDuration, Location.entryCount,
      Location.name, Location.totalChildDuration, Location.children]
  exact (excludeChildren_sum_law sumTree hsane).2

/-- C4: the `Complete` closure succeeds exactly once: the first invocation
records the duration and the exit; any later invocation panics with
"timing already completed" and leaves `ExitCount` and `TotalDuration`
untouched, and in any serialization of concurrent invocations exactly the
first one succeeds (location.go:63-75). -/
theorem complete_twice_panics (l : Location) (d : Int) (rest : List Int) :
    completeStep d (false, l) = .ok (true, l.applyComplete d)
    ∧ completeStep d (true, l) = .error "timing already completed"
    ∧ (l.applyComplete d).exitCount = l.exitCount + 1
    ∧ (l.applyComplete d).totalDuration = l.totalDuration + d
    ∧ runAttempts (d :: rest) (false, l) = ((true, l.applyComplete d), 1)
    ∧ runAttempts rest (true, l) = ((true, l), 0) := by
  refine ⟨rfl, rfl, exitCount_applyComplete l d, totalDuration_applyComplete l d, ?_,
    runAttempts_ended rest l⟩
  simp [runAttempts, completeStep, runAttempts_ended]

theorem wrap_break (st1 : RunState) (he : st1.loc.entryCount = 0)
    (hx : st1.loc.exitCount = 0) (hh : st1.handles[0]? = some false) :
    ¬((List.foldl stepOp st1 [LocOp.completeOp 0 5]).loc.exitCount
        ≤ (List.foldl stepOp st1 [LocOp.completeOp 0 5]).loc.entryCount) := by
  have hfinal : stepOp st1 (LocOp.completeOp 0 5)
      = ⟨st1.loc.applyCompleteW 5, st1.handles.set 0 true⟩ := by
    simp [stepOp, hh]
  have h1 : (st1.loc.applyCompleteW 5).exitCount = 1 := by
    rw [exitCount_applyCompleteW, hx]
    norm_num [uint32Mod]
  have h2 : (st1.loc.applyCompleteW 5).entryCount = 0 := by
    rw [entryCount_applyCompleteW, he]
  simp only [List.foldl_cons, List.foldl_nil, hfinal]
  simp [h1, h2]

/-- C5 counterexample: `EntryCount` is a Go uint32 and `atomic.AddUint32`
(location.go:65) wraps at 2^32, so the claim fails on the source at a
concrete input: on a fresh location, 2^32 `Start` calls wrap the entry
counter back to 0, and one `Complete` of the first handle then leaves
`ExitCount = 1 > EntryCount = 0`. -/
theorem entry_ge_exit_wrap_counterexample :
    ¬((runOps (Location.node "w" 0 0 0 false [] [] [])
          (List.replicate (2 ^ 32) LocOp.startOp ++ [LocOp.completeOp 0 5])).loc.exitCount
        ≤ (runOps (Location.node "w" 0 0 0 false [] [] [])
          (List.replicate (2 ^ 32) LocOp.startOp ++ [LocOp.completeOp 0 5])).loc.entryCount) := by
  have h0 : ((⟨Location.node "w" 0 0 0 false [] [] [], []⟩ : RunState)).loc.entryCount
      < uint32Mod := by
    norm_num [Location.entryCount, uint32Mod]
  obtain ⟨he, hx, hh⟩ := foldl_replicate_start (2 ^ 32)
    ⟨Location.node "w" 0 0 0 false [] [] [], []⟩ h0
  rw [runOps, List.foldl_append]
  apply wrap_break
  · rw [he]
    norm_num [Location.entryCount, uint32Mod]
  · rw [hx]
    norm_num [Location.exitCount]
  · rw [hh, List.nil_append, List.getElem?_replicate,
      if_pos (by norm_num : (0 : Nat) < 2 ^ 32)]

/-- C5 (amended): over any sequence of `Start` and `Complete` operations
on one `Location` in which the uint32 entry counter cannot wrap — the
initial `EntryCount` plus the number of `Start` calls stays below 2^32 —
`EntryCount >= ExitCount` holds at every point (every prefix of a
sequence is itself a sequence, so the final state of an arbitrary
sequence covers all intermediate points). -/
theorem entry_ge_exit_invariant (l0 : Location) (ops : List LocOp)
    (h : l0.exitCount ≤ l0.entryCount)
    (hb : l0.entryCount + countStarts ops < uint32Mod) :
    (runOps l0 ops).loc.exitCount ≤ (runOps l0 ops).loc.entryCount := by
  have hi := foldl_inv l0 ops ⟨l0, []⟩ (by simp) (by simp) h (by simpa using hb)
  have hc := List.count_le_length true (ops.foldl stepOp ⟨l0, []⟩).handles
  simp only [runOps] at *
  omega

/-- C5 witness: a fresh location with a start, a completion, a repeated
(panicking) completion and another start. -/
theorem entry_ge_exit_invariant_witness :
    (runOps (Location.node "w" 0 0 0 false [] [] [])
        [.startOp, .completeOp 0 5, .completeOp 0 7, .startOp]).loc.exitCount
      ≤ (runOps (Location.node "w" 0 0 0 false [] [] [])
        [.startOp, .completeOp 0 5, .completeOp 0 7, .startOp]).loc.entryCount :=
  entry_ge_exit_invariant (Location.node "w" 0 0 0 false [] [] [])
    [.startOp, .completeOp 0 5, .completeOp 0 7, .startOp] (by decide) (by decide)

/-- C6: `getChild` creates a child at most once per name (location.go:142-167):
a hit returns the registered child and leaves the parent unchanged; a miss
registers exactly one fresh child (appended to the children map and to
`CallOrder`); and calling `getChild` again with the same name returns that
very child and leaves the parent unchanged. -/
theorem getChild_at_most_once (l : Location) (nm : String) :
    (∀ cl, l.children.find? (fun c => c.name == nm) = some cl → getChild l nm = (cl, l))
    ∧ (l.children.find? (fun c => c.name == nm) = none →
        (getChild l nm).1 = .node nm 0 0 0 false [] [] []
        ∧ (getChild l nm).2.children
            = l.children ++ [Location.node nm 0 0 0 false [] [] []]
        ∧ (getChild l nm).2.callOrder = l.callOrder ++ [nm])
    ∧ getChild (getChild l nm).2 nm = ((getChild l nm).1, (getChild l nm).2) := by
  cases l with
  | node n e x d a dt co cs =>
    simp only [Location.children, Location.callOrder]
    cases hfind : cs.find? (fun c => c.name == nm) with
    | some cl =>
      have hg : getChild (Location.node n e x d a dt co cs) nm
          = (cl, Location.node n e x d a dt co cs) := by
        simp only [getChild]
        rw [hfind]
      refine ⟨fun cl' hcl' => ?_, fun hnone => Option.noConfusion hnone, ?_⟩
      · injection hcl' with hh
        subst hh
        exact hg
      · simp only [hg]
    | none =>
      have hg : getChild (Location.node n e x d a dt co cs) nm
          = (Location.node nm 0 0 0 false [] [] [],
             Location.node n e x d a dt (co ++ [nm])
               (cs ++ [Location.node nm 0 0 0 false [] [] []])) := by
        simp only [getChild]
        rw [hfind]
      have hfr : (cs ++ [Location.node nm 0 0 0 false [] [] []]).find?
            (fun c => c.name == nm)
          = some (Location.node nm 0 0 0 false [] [] []) := by
        rw [List.find?_append, hfind]
        simp [Location.name]
      have hg2 : getChild (Location.node n e x d a dt (co ++ [nm])
            (cs ++ [Location.node nm 0 0 0 false [] [] []])) nm
          = (Location.node nm 0 0 0 false [] [] [],
             Location.node n e x d a dt (co ++ [nm])
               (cs ++ [Location.node nm 0 0 0 false [] [] []])) := by
        simp only [getChild]
        rw [hfr]
      refine ⟨fun cl' hcl' => Option.noConfusion hcl', fun _ => ?_, ?_⟩
      · rw [hg]
        exact ⟨rfl, rfl, rfl⟩
      · simp only [hg]
        exact hg2

/-- C6 witness: creating then re-fetching the child "a" of a leaf parent. -/
theorem getChild_at_most_once_witness :
    (getChild (Location.node "p" 1 1 50 false [] [] []) "a").2.children
        = [Location.node "a" 0 0 0 false [] [] []]
    ∧ getChild (getChild (Location.node "p" 1 1 50 false [] [] []) "a").2 "a"
        = ((getChild (Location.node "p" 1 1 50 false [] [] []) "a").1,
           (getChild (Location.node "p" 1 1 50 false [] [] []) "a").2) := by
  have h := getChild_at_most_once (Location.node "p" 1 1 50 false [] [] []) "a"
  exact ⟨((h.2.1 rfl).2.1).trans (by simp [Location.children]), h.2.2⟩

/-- C7 counterexample: a node with EntryCount 3, ExitCount 2 and 100ns of
duration.  Its rendered line carries the entries/exits warning AND the
per-call average " (50/call)" (output.go:72-81 appends the average
whenever ExitCount > 1, also on imbalanced nodes), so an imbalanced
node's line does not carry only the entries/exits text. -/
theorem imbalanced_line_counterexample :
    selfLine imbalancedNode "" plainOptions = "x - 100 entries: 3 exits: 2 (50/call)"
    ∧ selfLine imbalancedNode "" plainOptions ≠ "x - 100 entries: 3 exits: 2" := by
  exact ⟨by decide, by decide⟩

/-- C7 (amended): for a rendered node with EntryCount > 0: an imbalanced
node's line appends " entries: N exits: M" and, whenever ExitCount > 1,
also the per-call average; a balanced node completed more than once
appends " calls: N" and the per-call average; a balanced node with at
most one completion appends neither. -/
theorem line_counters_amended (l : Location) (path : String) (o : ReportOptions)
    (he : 0 < l.entryCount) :
    (l.entryCount ≠ l.exitCount →
        selfLine l path o
          = o.pfx ++ path ++ effectiveName l ++ " - "
            ++ (o.durationFormatter (reportDuration l o.excludeChildren)
              ++ (" entries: " ++ toString l.entryCount ++ " exits: "
                  ++ toString l.exitCount)
              ++ (if l.exitCount > 1 then
                    " (" ++ o.durationFormatter
                        (perCallDuration (reportDuration l o.excludeChildren) l.exitCount)
                      ++ "/call)"
                  else ""))
            ++ formatDetails l o.pfx)
    ∧ (l.entryCount = l.exitCount → l.exitCount > 1 →
        selfLine l path o
          = o.pfx ++ path ++ effectiveName l ++ " - "
            ++ (o.durationFormatter (reportDuration l o.excludeChildren)
              ++ (" calls: " ++ toString l.entryCount)
              ++ (" (" ++ o.durationFormatter
                    (perCallDuration (reportDuration l o.excludeChildren) l.exitCount)
                  ++ "/call)"))
            ++ formatDetails l o.pfx)
    ∧ (l.entryCount = l.exitCount → l.exitCount ≤ 1 →
        selfLine l path o
          = o.pfx ++ path ++ effectiveName l ++ " - "
            ++ o.durationFormatter (reportDuration l o.excludeChildren)
            ++ formatDetails l o.pfx) := by
  refine ⟨fun hne => ?_, fun heq hgt => ?_, fun heq hle => ?_⟩
  · simp [selfLine, countersText, perCallText, hne, he, String.append_assoc]
  · have hpos : 0 < l.exitCount := by omega
    simp [selfLine, countersText, perCallText, heq, hgt, he, hpos, String.append_assoc]
  · have hx : ¬l.exitCount > 1 := by omega
    have hpos : 0 < l.exitCount := by omega
    simp [selfLine, countersText, perCallText, heq, hx, he, hpos, String.append_assoc]

/-- C7 witness: an imbalanced node with a single completion carries the
entries/exits warning and no per-call average. -/
theorem line_counters_amended_witness :
    selfLine imbalancedOnce "" plainOptions = "y - 10 entries: 2 exits: 1" :=
  ((line_counters_amended imbalancedOnce "" plainOptions (by decide)).1
    (by decide)).trans (by decide)

/-- C8: rendering is deterministic: `dumpToBuilder` visits children in
lexically sorted name order — `sortChildren` is a sorted permutation of
the children, never map-iteration order — and repeated renders of the
same tree with the same options are byte-identical. -/
theorem render_sorted_deterministic :
    (∀ cs : List Location,
        List.Sorted (· ≤ ·) ((sortChildren cs).map Location.name)
        ∧ List.Perm (sortChildren cs) cs)
    ∧ ∀ (l : Location) (o : ReportOptions), l.report o = l.report o := by
  refine ⟨fun cs => ⟨?_, sortChildren_perm cs⟩, fun l o => rfl⟩
  have h := List.sorted_insertionSort (fun a b : Location => a.name ≤ b.name) cs
  simpa [List.Sorted, List.pairwise_map, sortChildren] using h

/-- C9 counterexample: on a context that carries no timing tree,
`findParentTiming` returns nil instead of panicking, and `ForName`
silently creates a fresh root tree (timing.go:108-120, 123-132) — the
claimed fail-loudly behaviour for a missing tree does not hold. -/
theorem missing_timing_no_panic_counterexample :
    findParentTiming GoContext.background = Except.ok none
    ∧ forName GoContext.background "op"
        = Except.ok (Location.node "op" 0 0 0 false [] [] []) :=
  ⟨rfl, rfl⟩

/-- C9 (amended): `findParentTiming` panics only when the timing slot
holds a value of the wrong dynamic type; a context with no timing value
yields no tree without failing, in which case `ForName` creates and
returns a fresh root `Location`; a proper timing value is returned. -/
theorem findParentTiming_amended (ctx : GoContext) :
    (ctxTimingValue ctx = none → findParentTiming ctx = .ok none)
    ∧ (∀ loc, ctxTimingValue ctx = some (.ctxRef loc) →
        findParentTiming ctx = .ok (some loc))
    ∧ (∀ tag, ctxTimingValue ctx = some (.wrongType tag) →
        findParentTiming ctx = .error "invalid context timing type")
    ∧ (∀ nm, nm ≠ "" → ctxTimingValue ctx = none →
        forName ctx nm = .ok (.node nm 0 0 0 false [] [] [])) := by
  refine ⟨fun h => ?_, fun loc h => ?_, fun tag h => ?_, fun nm hnm h => ?_⟩
  · simp [findParentTiming, h]
  · simp [findParentTiming, h]
  · simp [findParentTiming, h]
  · simp [forName, findParentTiming, h, hnm]

/-- C9 witness: a chain with an unrelated value and no timing tree, plus a
wrongly-typed timing value. -/
theorem findParentTiming_amended_witness :
    findParentTiming (GoContext.withOther .background) = Except.ok none
    ∧ forName (GoContext.withOther .background) "req"
        = Except.ok (Location.node "req" 0 0 0 false [] [] [])
    ∧ findParentTiming (GoContext.withWrongType .background 7)
        = Except.error "invalid context timing type" := by
  have h := findParentTiming_amended (GoContext.withOther .background)
  have h' := findParentTiming_amended (GoContext.withWrongType .background 7)
  exact ⟨h.1 rfl, h.2.2.2 "req" (by decide) rfl, h'.2.2.1 7 rfl⟩

/-- C10: a named but never-started node (EntryCount = 0) still gets a
line: prefix, path and (effective) name followed by " - " with no
duration, no entries/exits or calls text and no per-call average — only
its formatted details follow; and `dumpToBuilder` emits exactly that line
before recursing into the children. -/
theorem unstarted_node_line (l : Location) (path acc : String) (o : ReportOptions)
    (hn : l.name ≠ "") (he : l.entryCount = 0) :
    selfLine l path o = o.pfx ++ path ++ effectiveName l ++ " - " ++ formatDetails l o.pfx
    ∧ (l.async = false →
        selfLine l path o = o.pfx ++ path ++ l.name ++ " - " ++ formatDetails l o.pfx)
    ∧ dumpToBuilder l path o acc
        = dumpList (sortChildren l.children)
            (if o.compact then path ++ o.separator else path ++ effectiveName l ++ o.separator)
            o ((if acc.length > 0 then acc ++ "\n" else acc) ++ selfLine l path o) := by
  have h1 : selfLine l path o
      = o.pfx ++ path ++ effectiveName l ++ " - " ++ formatDetails l o.pfx := by
    simp [selfLine, he]
  refine ⟨h1, fun ha => ?_, ?_⟩
  · rw [h1]
    simp [effectiveName, ha]
  · rw [dumpToBuilder]
    simp [hn]

/-- C10 witness: a never-started node with one inline detail renders as
"idle -  (items:42)". -/
theorem unstarted_node_line_witness :
    selfLine idleNode "" plainOptions = "idle -  (items:42)" :=
  ((unstarted_node_line idleNode "" "" plainOptions (by decide) rfl).1).trans (by decide)

end GoTiming
